import Mathlib

/-!
Shallow embedding of the GzipDecompressor crate (sources under src/):
bit_reader.rs, tracking_writer.rs, huffman_coding.rs, deflate.rs, gzip.rs,
lib.rs.  Bytes are naturals below 256, byte streams are lists, machine
integer casts are explicit `% 2^w` operations, and fallible operations
return `Except Err`.  Unbounded source loops take an explicit fuel
argument; fuel exhaustion is a dedicated error that never occurs in the
theorems below (they either hypothesise or exhibit successful runs).
-/

deriving instance DecidableEq for Except

namespace GD

/-- Abstract error kinds of the decompressor (anyhow errors in the source,
distinguished here by the failing check). -/
inductive Err where
  | unexpectedEnd
  | badMagic
  | unsupportedMethod
  | headerCrcMismatch
  | unterminatedString
  | badUtf8
  | reservedBlockType
  | storedLengthMismatch
  | badLength
  | malformedCode
  | tooManySymbols
  | reservedSymbol
  | noPrevLength
  | overrunLengths
  | badBackReference
  | writeZero
  | crcMismatch
  | lengthMismatch
  | fuelExhausted
  deriving DecidableEq, Repr

/-! ## bit_reader.rs -/

/-- BitSequence from bit_reader.rs: a code value `bits` (u16 in the source)
with a number `len` of significant bits. -/
structure BitSequence where
  bits : Nat
  len : Nat
  deriving DecidableEq, Repr

/-- BitSequence::concat: `(self.bits << other.len) | other.bits` in u16
arithmetic, lengths added. -/
def concatSeq (a b : BitSequence) : BitSequence :=
  ⟨((a.bits <<< b.len) ||| b.bits) % 65536, a.len + b.len⟩

/-- State of BitReader<T>: the remaining byte stream and the unread-bits
buffer. -/
structure BitRd where
  stream : List Nat
  unread : BitSequence
  deriving DecidableEq, Repr

/-- The accumulator loop of BitReader::read_bits: while `len > cnt`, pull
one byte and OR it in at position `cnt`. -/
def fillBits : List Nat → Nat → Nat → Nat → Except Err (Nat × Nat × List Nat)
  | [], bits, cnt, len =>
      if cnt < len then .error .unexpectedEnd else .ok (bits, cnt, [])
  | b :: s1, bits, cnt, len =>
      if cnt < len then fillBits s1 (bits ||| (b <<< cnt)) (cnt + 8) len
      else .ok (bits, cnt, b :: s1)

/-- BitReader::read_bits: extract `len` low bits of the accumulator, keep
the rest as the new unread-bits buffer (u16 casts made explicit). -/
def readBits (len : Nat) (r : BitRd) : Except Err (BitSequence × BitRd) :=
  match fillBits r.stream r.unread.bits r.unread.len len with
  | .error e => .error e
  | .ok (bits, cnt, s1) =>
      .ok (⟨(bits &&& (2 ^ len - 1)) % 65536, len⟩, ⟨s1, ⟨(bits >>> len) % 65536, cnt - len⟩⟩)

/-- BitReader::borrow_reader_from_boundary: discard the unread bits. -/
def alignByte (r : BitRd) : BitRd := ⟨r.stream, ⟨0, 0⟩⟩

/-! ## Byte-level primitive reads (byteorder / std::io on a list) -/

/-- Read one byte (ReadBytesExt::read_u8); fails at end of input. -/
def readU8 (s : List Nat) : Except Err (Nat × List Nat) :=
  match s with
  | [] => .error .unexpectedEnd
  | b :: s1 => .ok (b, s1)

/-- Read a little-endian u16. -/
def readU16LE (s : List Nat) : Except Err (Nat × List Nat) := do
  let (a, s1) ← readU8 s
  let (b, s2) ← readU8 s1
  .ok (a + 256 * b, s2)

/-- Read a little-endian u32. -/
def readU32LE (s : List Nat) : Except Err (Nat × List Nat) := do
  let (a, s1) ← readU8 s
  let (b, s2) ← readU8 s1
  let (c, s3) ← readU8 s2
  let (d, s4) ← readU8 s3
  .ok (a + 256 * (b + 256 * (c + 256 * d)), s4)

/-- Read exactly `n` bytes (std::io::Read::read_exact). -/
def readExact (n : Nat) (s : List Nat) : Except Err (List Nat × List Nat) :=
  if s.length < n then .error .unexpectedEnd else .ok (s.take n, s.drop n)

/-! ## CRC-32/ISO-HDLC (the crc crate used by the source) -/

/-- Reflected CRC-32 polynomial 0xEDB88320. -/
def crcPoly : Nat := 0xEDB88320

/-- One bit step of the reflected CRC-32 computation. -/
def crcBitStep (x : Nat) : Nat :=
  if x % 2 = 1 then (x >>> 1) ^^^ crcPoly else x >>> 1

/-- Table entry: eight bit steps on a byte value. -/
def crcTableEntry (x : Nat) : Nat :=
  crcBitStep (crcBitStep (crcBitStep (crcBitStep
    (crcBitStep (crcBitStep (crcBitStep (crcBitStep x)))))))

/-- Digest update with one byte. -/
def crcUpdate (reg b : Nat) : Nat :=
  (reg >>> 8) ^^^ crcTableEntry ((reg ^^^ b) &&& 255)

/-- Digest update with a byte list. -/
def crcUpdateList (reg : Nat) (bs : List Nat) : Nat := bs.foldl crcUpdate reg

/-- Initial digest register. -/
def CRC_INIT : Nat := 0xFFFFFFFF

/-- Digest::finalize: final XOR. -/
def crcFinalize (reg : Nat) : Nat := reg ^^^ 0xFFFFFFFF

/-- CRC-32 of a byte list. -/
def crc32 (bs : List Nat) : Nat := crcFinalize (crcUpdateList CRC_INIT bs)

/-! ## tracking_writer.rs -/

/-- The downstream byte sink (the `W: Write` parameter): collected bytes
plus an optional capacity.  `cap = none` models an always-accepting sink
(Vec, stdout); `cap = some c` models the fixed-size `&mut [u8]` buffers of
the source tests, which accept at most the remaining room. -/
structure Sink where
  data : List Nat
  cap : Option Nat
  deriving DecidableEq, Repr

/-- One Write::write call on the sink: accept as many bytes as fit. -/
def sinkWrite (s : Sink) (buf : List Nat) : Sink × Nat :=
  let k := match s.cap with
    | none => buf.length
    | some c => min buf.length (c - s.data.length)
  (⟨s.data ++ buf.take k, s.cap⟩, k)

/-- The sink has room for `n` more bytes. -/
def roomFor (s : Sink) (n : Nat) : Prop :=
  match s.cap with
  | none => True
  | some c => s.data.length + n ≤ c

/-- History ring capacity from tracking_writer.rs. -/
def HISTORY_SIZE : Nat := 32768

/-- TrackingWriter state: sink, history ring, CRC digest register and byte
count. -/
structure TWr where
  sink : Sink
  history : List Nat
  digest : Nat
  byteCount : Nat
  deriving DecidableEq, Repr

/-- TrackingWriter::new. -/
def twNew (s : Sink) : TWr := ⟨s, [], CRC_INIT, 0⟩

/-- Drain the front of the history so it holds at most HISTORY_SIZE
bytes. -/
def trimHistory (h : List Nat) : List Nat :=
  if HISTORY_SIZE < h.length then h.drop (h.length - HISTORY_SIZE) else h

/-- TrackingWriter::write: forward to the sink, then extend history, digest
and byte count by the accepted prefix. -/
def twWrite (w : TWr) (buf : List Nat) : TWr × Nat :=
  let p := sinkWrite w.sink buf
  (⟨p.1, trimHistory (w.history ++ buf.take p.2),
    crcUpdateList w.digest (buf.take p.2), w.byteCount + p.2⟩, p.2)

/-- Loop body of std::io::Write::write_all on a TrackingWriter: write,
fail on a zero-byte write, continue with the unaccepted tail.  The fuel
counts loop iterations; since every continuing iteration accepts at least
one byte, `buf.length` iterations always suffice (see
`twWriteAll_fuel_irrelevant`). -/
def twWriteAllGo : Nat → TWr → List Nat → Except Err TWr
  | _, w, [] => .ok w
  | 0, _, _ :: _ => .error .writeZero
  | f + 1, w, b :: rest =>
      let p := twWrite w (b :: rest)
      if p.2 = 0 then .error .writeZero
      else twWriteAllGo f p.1 ((b :: rest).drop p.2)

/-- std::io::Write::write_all on a TrackingWriter. -/
def twWriteAll (w : TWr) (buf : List Nat) : Except Err TWr :=
  twWriteAllGo buf.length w buf

/-- Iterator::cycle().take(n) over a list (empty input cycles to nothing,
as in Rust). -/
def cycleTake (w : List Nat) (n : Nat) : List Nat :=
  if w.isEmpty then []
  else (List.range n).map (fun i => w.getD (i % w.length) 0)

/-- TrackingWriter::write_previous: validate the back-reference, snapshot
the source window, cycle it to length `len` and write it. -/
def twWritePrevious (w : TWr) (dist len : Nat) : Except Err TWr :=
  if w.history.length < dist ∨ len = 0 ∨ dist = 0 then .error .badBackReference
  else
    let start := w.history.length - dist
    let stop := min (start + len) w.history.length
    let slice := (w.history.drop start).take (stop - start)
    twWriteAll w (cycleTake slice len)

/-- TrackingWriter::crc32: finalized digest and the underlying sink. -/
def twCrc32Extract (w : TWr) : Nat × Sink := (crcFinalize w.digest, w.sink)

/-! ## huffman_coding.rs -/

/-- Maximum Huffman code length. -/
def MAX_BITS : Nat := 15

/-- Number of symbols of a given code length, with length 0 forced to
zero (`bl_count` after the `bl_count[0] = 0` assignment). -/
def blCnt (L : List Nat) (l : Nat) : Nat := if l = 0 then 0 else L.count l

/-- The `next_code` array filled by the loop
`code = (code + bl_count[len - 1]) << 1` (value at index `l`). -/
def ncInitF (L : List Nat) : Nat → Nat
  | 0 => 0
  | l + 1 => (ncInitF L l + blCnt L l) * 2

/-- The assignment loop of HuffmanCoding::from_lengths: walk the symbols
in order; for each nonzero length check `next_code[len] < 2^(len+1)`,
convert the symbol index through the alphabet, record the key and bump
`next_code[len]`. -/
def assignCodes {T : Type} (conv : Nat → Except Err T) :
    List Nat → Nat → (Nat → Nat) → Except Err (List (BitSequence × T))
  | [], _, _ => .ok []
  | l :: rest, i, nc =>
    if l = 0 then assignCodes conv rest (i + 1) nc
    else if 2 ^ (l + 1) ≤ nc l then .error .malformedCode
    else if 65536 ≤ i then .error .tooManySymbols
    else
      match conv i with
      | .error e => .error e
      | .ok t =>
          match assignCodes conv rest (i + 1) (fun x => if x = l then nc l + 1 else nc x) with
          | .error e => .error e
          | .ok es => .ok ((⟨nc l % 65536, l⟩, t) :: es)

/-- HuffmanCoding::from_lengths: reject lengths above MAX_BITS, then run
the canonical assignment.  The table is kept as the association list of
`(key, token)` pairs in symbol order (the source HashMap; keys are pairwise
distinct, see the theorems below). -/
def fromLengths {T : Type} (conv : Nat → Except Err T) (L : List Nat) :
    Except Err (List (BitSequence × T)) :=
  if L.any (fun x => decide (MAX_BITS < x)) then .error .badLength
  else assignCodes conv L 0 (ncInitF L)

/-- HashMap::get on the modelled table. -/
def hmGet {T : Type} (m : List (BitSequence × T)) (k : BitSequence) : Option T :=
  (m.find? (fun e => decide (e.1 = k))).map (fun e => e.2)

/-- The bit walk of HuffmanCoding::read_symbol: up to `MAX_BITS` single-bit
reads, concatenating on the right and looking the code up after each. -/
def readSymbolGo {T : Type} (m : List (BitSequence × T)) (code : BitSequence) (r : BitRd) :
    Nat → Except Err (T × BitRd)
  | 0 => .error .malformedCode
  | k + 1 =>
    match readBits 1 r with
    | .error e => .error e
    | .ok (b, r1) =>
        let code1 := concatSeq code b
        match hmGet m code1 with
        | some t => .ok (t, r1)
        | none => readSymbolGo m code1 r1 k

/-- HuffmanCoding::read_symbol. -/
def readSymbol {T : Type} (m : List (BitSequence × T)) (r : BitRd) : Except Err (T × BitRd) :=
  readSymbolGo m ⟨0, 0⟩ r MAX_BITS

/-- TreeCodeToken from huffman_coding.rs. -/
inductive TreeCodeToken where
  | length (v : Nat)
  | copyPrev
  | repeatZero (base : Nat) (extraBits : Nat)
  deriving DecidableEq, Repr

/-- TryFrom<HuffmanCodeWord> for TreeCodeToken. -/
def treeCodeOf (v : Nat) : Except Err TreeCodeToken :=
  if v ≤ 15 then .ok (.length v)
  else if v = 16 then .ok .copyPrev
  else if v = 17 then .ok (.repeatZero 3 3)
  else if v = 18 then .ok (.repeatZero 11 7)
  else .error .reservedSymbol

/-- LitLenToken from huffman_coding.rs. -/
inductive LitLenToken where
  | literal (b : Nat)
  | endOfBlock
  | length (base : Nat) (extraBits : Nat)
  deriving DecidableEq, Repr

/-- TryFrom<HuffmanCodeWord> for LitLenToken, arm by arm. -/
def litLenOf (v : Nat) : Except Err LitLenToken :=
  if v ≤ 255 then .ok (.literal v)
  else if v = 256 then .ok .endOfBlock
  else if v ≤ 264 then .ok (.length (v - 254) 0)
  else if v ≤ 268 then .ok (.length (11 + 2 * (v - 265)) 1)
  else if v ≤ 272 then .ok (.length (19 + 4 * (v - 269)) 2)
  else if v ≤ 276 then .ok (.length (35 + 8 * (v - 273)) 3)
  else if v ≤ 280 then .ok (.length (67 + 16 * (v - 277)) 4)
  else if v ≤ 284 then .ok (.length (131 + 32 * (v - 281)) 5)
  else if v = 285 then .ok (.length 258 0)
  else .error .reservedSymbol

/-- DistanceToken from huffman_coding.rs. -/
structure DistanceToken where
  base : Nat
  extraBits : Nat
  deriving DecidableEq, Repr

/-- TryFrom<HuffmanCodeWord> for DistanceToken. -/
def distTokenOf (v : Nat) : Except Err DistanceToken :=
  if v ≤ 1 then .ok ⟨v + 1, 0⟩
  else if v ≤ 29 then
    let e := v / 2 - 1
    .ok ⟨((v % 2 + 2) <<< e) + 1, e⟩
  else .error .reservedSymbol

/-- read_codelen_length: one 3-bit read. -/
def readCodelenLen (r : BitRd) : Except Err (Nat × BitRd) :=
  match readBits 3 r with
  | .error e => .error e
  | .ok (b, r1) => .ok (b.bits, r1)

/-- The indexed loop of build_codelen_coding: the i-th remaining 3-bit
length is stored at `8 + i/2` (even i) or `7 - i/2` (odd i). -/
def codelenLoop : Nat → Nat → List Nat → BitRd → Except Err (List Nat × BitRd)
  | 0, _, arr, r => .ok (arr, r)
  | c + 1, i, arr, r =>
    match readCodelenLen r with
    | .error e => .error e
    | .ok (v, r1) =>
        codelenLoop c (i + 1) (arr.set (if i % 2 = 0 then 8 + i / 2 else 7 - i / 2) v) r1

/-- build_codelen_coding up to the 19-entry length array: the first four
3-bit lengths land at indices 16, 17, 18, 0, the rest through the indexed
loop. -/
def buildCodelenLengths (ncode : Nat) (r : BitRd) : Except Err (List Nat × BitRd) := do
  let a0 := List.replicate 19 0
  let (v16, r1) ← readCodelenLen r
  let (v17, r2) ← readCodelenLen r1
  let (v18, r3) ← readCodelenLen r2
  let (v0, r4) ← readCodelenLen r3
  codelenLoop (ncode - 4) 0 ((((a0.set 16 v16).set 17 v17).set 18 v18).set 0 v0) r4

/-- build_codelen_coding: the length array followed by from_lengths. -/
def buildCodelenCoding (ncode : Nat) (r : BitRd) :
    Except Err (List (BitSequence × TreeCodeToken) × BitRd) := do
  let (lens, r1) ← buildCodelenLengths ncode r
  let m ← fromLengths treeCodeOf lens
  .ok (m, r1)

/-- The code-length decode loop of decode_litlen_distance_trees: while
fewer than `total` lengths were produced, read a TreeCodeToken and honour
the literal/copy-previous/repeat-zero directives. -/
def decodeLenSyms (clm : List (BitSequence × TreeCodeToken)) :
    Nat → Nat → List Nat → BitRd → Except Err (List Nat × BitRd)
  | 0, _, _, _ => .error .fuelExhausted
  | f + 1, total, acc, r =>
    if total ≤ acc.length then .ok (acc, r)
    else
      match readSymbol clm r with
      | .error e => .error e
      | .ok (.length v, r1) => decodeLenSyms clm f total (acc ++ [v]) r1
      | .ok (.copyPrev, r1) =>
          match readBits 2 r1 with
          | .error e => .error e
          | .ok (off, r2) =>
              match acc.getLast? with
              | none => .error .noPrevLength
              | some prev => decodeLenSyms clm f total (acc ++ List.replicate (3 + off.bits) prev) r2
      | .ok (.repeatZero base extraBits, r1) =>
          match readBits extraBits r1 with
          | .error e => .error e
          | .ok (off, r2) => decodeLenSyms clm f total (acc ++ List.replicate (base + off.bits) 0) r2

/-- decode_litlen_distance_trees: HLIT, HDIST, HCLEN, the code-length
coding, the decoded length vector, the overrun check, and the two
from_lengths builds. -/
def decodeLitlenDistanceTrees (fuel : Nat) (r : BitRd) :
    Except Err ((List (BitSequence × LitLenToken) × List (BitSequence × DistanceToken)) × BitRd) := do
  let (hlit, r1) ← readBits 5 r
  let (hdist, r2) ← readBits 5 r1
  let (hclen, r3) ← readBits 4 r2
  let nlit := hlit.bits + 257
  let ndist := hdist.bits + 1
  let (clm, r4) ← buildCodelenCoding (hclen.bits + 4) r3
  let (lens, r5) ← decodeLenSyms clm fuel (nlit + ndist) [] r4
  if nlit + ndist < lens.length then .error .overrunLengths
  else do
    let lt ← fromLengths litLenOf (lens.take nlit)
    let dt ← fromLengths distTokenOf (lens.drop nlit)
    .ok ((lt, dt), r5)

/-- The fixed literal/length code lengths of build_fixed_trees. -/
def fixedLitlenLengths : List Nat :=
  List.replicate 144 8 ++ List.replicate 112 9 ++ List.replicate 24 7 ++ List.replicate 8 8

/-- build_fixed_trees. -/
def buildFixedTrees :
    Except Err (List (BitSequence × LitLenToken) × List (BitSequence × DistanceToken)) := do
  let lt ← fromLengths litLenOf fixedLitlenLengths
  let dt ← fromLengths distTokenOf (List.replicate 32 5)
  .ok (lt, dt)

/-! ## deflate.rs -/

/-- The literal/length/distance loop of DeflateBlock::process_with_trees
and process_length_token. -/
def processTokens (lt : List (BitSequence × LitLenToken))
    (dt : List (BitSequence × DistanceToken)) :
    Nat → BitRd → TWr → Except Err (BitRd × TWr)
  | 0, _, _ => .error .fuelExhausted
  | f + 1, r, w =>
    match readSymbol lt r with
    | .error e => .error e
    | .ok (.literal b, r1) =>
        match twWriteAll w [b] with
        | .error e => .error e
        | .ok w1 => processTokens lt dt f r1 w1
    | .ok (.endOfBlock, r1) => .ok (r1, w)
    | .ok (.length base extraBits, r1) => do
        let (off, r2) ← readBits extraBits r1
        let (dtok, r3) ← readSymbol dt r2
        let (doff, r4) ← readBits dtok.extraBits r3
        let w1 ← twWritePrevious w (dtok.base + doff.bits) (base + off.bits)
        processTokens lt dt f r4 w1

/-- DeflateBlock::process_uncompressed: align to the byte boundary, read
LEN and NLEN, check the complement, copy LEN raw bytes through the
writer. -/
def processStored (r : BitRd) (w : TWr) : Except Err (BitRd × TWr) := do
  let s0 := (alignByte r).stream
  let (len, s1) ← readU16LE s0
  let (nlen, s2) ← readU16LE s1
  if len ≠ (65535 ^^^ nlen) then .error .storedLengthMismatch
  else do
    let (buf, s3) ← readExact len s2
    let w1 ← twWriteAll w buf
    .ok (⟨s3, ⟨0, 0⟩⟩, w1)

/-- The member block loop of lib.rs / deflate.rs: read BFINAL and BTYPE,
dispatch on the block type, and stop after the final block, returning the
byte stream (BitReader::into_inner) and the writer for the footer. -/
def blocksLoop : Nat → BitRd → TWr → Except Err (List Nat × TWr)
  | 0, _, _ => .error .fuelExhausted
  | f + 1, r, w => do
    let (bfin, r1) ← readBits 1 r
    let (btyp, r2) ← readBits 2 r1
    if btyp.bits = 3 then .error .reservedBlockType
    else do
      let (r3, w1) ←
        if btyp.bits = 0 then processStored r2 w
        else do
          let (trees, rt) ←
            if btyp.bits = 1 then do
              let t ← buildFixedTrees
              (.ok (t, r2) : Except Err _)
            else decodeLitlenDistanceTrees f r2
          processTokens trees.1 trees.2 f rt w
      if bfin.bits = 1 then .ok (r3.stream, w1)
      else blocksLoop f r3 w1

/-! ## gzip.rs -/

/-- Continuation byte of a UTF-8 sequence. -/
def utf8Cont (c : Nat) : Bool := decide (128 ≤ c) && decide (c ≤ 191)

/-- Strict UTF-8 validity as checked by String::from_utf8 (RFC 3629:
no overlong forms, no surrogates, nothing above U+10FFFF). -/
def validUtf8 : List Nat → Bool
  | [] => true
  | b :: rest =>
    if b < 128 then validUtf8 rest
    else if 194 ≤ b ∧ b ≤ 223 then
      match rest with
      | c1 :: rest1 => utf8Cont c1 && validUtf8 rest1
      | [] => false
    else if b = 224 then
      match rest with
      | c1 :: c2 :: rest2 => decide (160 ≤ c1) && decide (c1 ≤ 191) && utf8Cont c2 && validUtf8 rest2
      | _ => false
    else if (225 ≤ b ∧ b ≤ 236) ∨ b = 238 ∨ b = 239 then
      match rest with
      | c1 :: c2 :: rest2 => utf8Cont c1 && utf8Cont c2 && validUtf8 rest2
      | _ => false
    else if b = 237 then
      match rest with
      | c1 :: c2 :: rest2 => decide (128 ≤ c1) && decide (c1 ≤ 159) && utf8Cont c2 && validUtf8 rest2
      | _ => false
    else if b = 240 then
      match rest with
      | c1 :: c2 :: c3 :: rest3 =>
          decide (144 ≤ c1) && decide (c1 ≤ 191) && utf8Cont c2 && utf8Cont c3 && validUtf8 rest3
      | _ => false
    else if 241 ≤ b ∧ b ≤ 243 then
      match rest with
      | c1 :: c2 :: c3 :: rest3 => utf8Cont c1 && utf8Cont c2 && utf8Cont c3 && validUtf8 rest3
      | _ => false
    else if b = 244 then
      match rest with
      | c1 :: c2 :: c3 :: rest3 =>
          decide (128 ≤ c1) && decide (c1 ≤ 143) && utf8Cont c2 && utf8Cont c3 && validUtf8 rest3
      | _ => false
    else false

/-- BufRead::read_until(0, ..): everything up to and including the first
NUL; at end of input return what was read with no error. -/
def readUntil0 : List Nat → List Nat × List Nat
  | [] => ([], [])
  | b :: rest =>
    if b = 0 then ([0], rest)
    else
      let p := readUntil0 rest
      (b :: p.1, p.2)

/-- GzipReader::read_null_term_string: read_until(0), require a nonempty
buffer, convert through String::from_utf8. -/
def readNullTermString (s : List Nat) : Except Err (List Nat × List Nat) :=
  let p := readUntil0 s
  if p.1.isEmpty then .error .unterminatedString
  else if validUtf8 p.1 then .ok (p.1, p.2)
  else .error .badUtf8

/-- MemberHeader (strings kept as the byte lists stored by the source,
NUL terminator included when present on the wire). -/
structure MemberHeader where
  cm : Nat
  mtime : Nat
  xfl : Nat
  os : Nat
  extra : Option (List Nat)
  name : Option (List Nat)
  comment : Option (List Nat)
  hasCrc : Bool
  isText : Bool
  deriving DecidableEq, Repr

/-- Test bit `n` of a flag byte. -/
def flagBit (n f : Nat) : Bool := decide ((f >>> n) % 2 = 1)

/-- Little-endian bytes of a u16. -/
def le2 (v : Nat) : List Nat := [v % 256, (v >>> 8) % 256]

/-- Little-endian bytes of a u32. -/
def le4 (v : Nat) : List Nat := [v % 256, (v >>> 8) % 256, (v >>> 16) % 256, (v >>> 24) % 256]

/-- MemberHeader::flags: the flag byte reconstructed from the parsed
fields (reserved bits 5..7 always zero). -/
def flagsByte (h : MemberHeader) : Nat :=
  (if h.isText then 1 else 0) + (if h.hasCrc then 2 else 0) +
  (if h.extra.isSome then 4 else 0) + (if h.name.isSome then 8 else 0) +
  (if h.comment.isSome then 16 else 0)

/-- The byte sequence digested by MemberHeader::crc16: magic, method, the
reconstructed flag byte, MTIME, XFL, OS, then extra with its u16 length
prefix, then the stored name plus a NUL, then the stored comment plus a
NUL. -/
def headerBytes (h : MemberHeader) : List Nat :=
  [0x1f, 0x8b, h.cm, flagsByte h] ++ le4 h.mtime ++ [h.xfl, h.os] ++
  (match h.extra with
   | some e => le2 (e.length % 65536) ++ e
   | none => []) ++
  (match h.name with
   | some n => n ++ [0]
   | none => []) ++
  (match h.comment with
   | some c => c ++ [0]
   | none => [])

/-- MemberHeader::crc16: low 16 bits of the CRC-32 of `headerBytes`. -/
def headerCrc16 (h : MemberHeader) : Nat := crc32 (headerBytes h) &&& 0xffff

/-- GzipReader::read_extra. -/
def readExtra (has : Bool) (s : List Nat) : Except Err (Option (List Nat) × List Nat) :=
  if has then do
    let (len, s1) ← readU16LE s
    let (buf, s2) ← readExact len s1
    .ok (some buf, s2)
  else .ok (none, s)

/-- GzipReader::read_name. -/
def readName (has : Bool) (s : List Nat) : Except Err (Option (List Nat) × List Nat) :=
  if has then
    match readNullTermString s with
    | .error e => .error e
    | .ok (n, s1) => .ok (some n, s1)
  else .ok (none, s)

/-- GzipReader::read_comment. -/
def readComment (has : Bool) (s : List Nat) : Except Err (Option (List Nat) × List Nat) :=
  if has then
    match readNullTermString s with
    | .error e => .error e
    | .ok (n, s1) => .ok (some n, s1)
  else .ok (none, s)

/-- GzipReader::read_header: magic, method, flags, the fixed fields, the
optional fields in wire order, then the optional CRC16 check against the
recomputed `headerCrc16`. -/
def readHeader (s : List Nat) : Except Err (MemberHeader × List Nat) := do
  let (id1, s1) ← readU8 s
  let (id2, s2) ← readU8 s1
  if id1 ≠ 0x1f ∨ id2 ≠ 0x8b then .error .badMagic
  else do
    let (cm, s3) ← readU8 s2
    let (flg, s4) ← readU8 s3
    let (mtime, s5) ← readU32LE s4
    let (xfl, s6) ← readU8 s5
    let (os, s7) ← readU8 s6
    let (extra, s8) ← readExtra (flagBit 2 flg) s7
    let (name, s9) ← readName (flagBit 3 flg) s8
    let (comment, s10) ← readComment (flagBit 4 flg) s9
    let h : MemberHeader :=
      ⟨cm, mtime, xfl, os, extra, name, comment, flagBit 1 flg, flagBit 0 flg⟩
    if flagBit 1 flg then do
      let (c16, s11) ← readU16LE s10
      if headerCrc16 h = c16 then .ok (h, s11) else .error .headerCrcMismatch
    else .ok (h, s10)

/-- GzipFooter::read_footer: CRC32 and ISIZE (both u32 LE), the length
check against the writer byte count, then the CRC check against the
finalized digest; returns the remaining stream and the recovered sink. -/
def readFooter (s : List Nat) (w : TWr) : Except Err (List Nat × Sink) := do
  let (dcrc, s1) ← readU32LE s
  let (dsize, s2) ← readU32LE s1
  if w.byteCount ≠ dsize then .error .lengthMismatch
  else
    let p := twCrc32Extract w
    if p.1 ≠ dcrc then .error .crcMismatch
    else .ok (s2, p.2)

/-! ## lib.rs: member pipeline and the multi-member loop -/

/-- One gzip member: header (next_member, with the DEFLATE-only method
check), a fresh BitReader and TrackingWriter over the same sink, the block
loop, then the footer. -/
def decodeMember (fuel : Nat) (s : List Nat) (sink : Sink) : Except Err (List Nat × Sink) := do
  let (h, s1) ← readHeader s
  if h.cm ≠ 8 then .error .unsupportedMethod
  else do
    let (s2, w1) ← blocksLoop fuel ⟨s1, ⟨0, 0⟩⟩ (twNew sink)
    readFooter s2 w1

/-- decompress: while the source is nonempty (GzipReader::is_empty probes
fill_buf), decode one member, reusing the remaining stream and the sink.
`mf` bounds the number of members. -/
def decompressLoop : Nat → Nat → List Nat → Sink → Except Err Sink
  | _, _, [], sink => .ok sink
  | 0, _, _ :: _, _ => .error .fuelExhausted
  | mf + 1, fuel, b :: s, sink =>
    match decodeMember fuel (b :: s) sink with
    | .error e => .error e
    | .ok (s1, sink1) => decompressLoop mf fuel s1 sink1

/-- The compressed byte streams of a member list. -/
def memberBytes (ms : List (List Nat × List Nat)) : List Nat := (ms.map Prod.fst).flatten

/-- The payloads of a member list, concatenated. -/
def memberPayloads (ms : List (List Nat × List Nat)) : List Nat := (ms.map Prod.snd).flatten

/-- A list of `(compressed bytes, payload)` pairs is a chain of well-formed
gzip members for the decoder: each member is nonempty, and decoding it in
front of the remaining members consumes exactly its bytes, succeeds, and
appends exactly its payload to the sink. -/
def chainOK (fuel : Nat) : List (List Nat × List Nat) → Sink → Prop
  | [], _ => True
  | (m, p) :: rest, sink =>
      m ≠ [] ∧
      decodeMember fuel (m ++ memberBytes rest) sink =
        .ok (memberBytes rest, ⟨sink.data ++ p, sink.cap⟩) ∧
      chainOK fuel rest ⟨sink.data ++ p, sink.cap⟩

/-! ## Specification-side definitions (stated from the claims, for
refinement comparisons against the source-shaped definitions above) -/

/-- Spec formulation of the back-reference copy (claim C2): byte `i` of
the emitted run is `history[h - dist + (i mod dist)]`, history measured
before the copy. -/
def backRefSpec (hist : List Nat) (dist len : Nat) : List Nat :=
  (List.range len).map (fun i => hist.getD (hist.length - dist + i % dist) 0)

/-- Spec permutation of the code-length alphabet (claim C8). -/
def clPerm : List Nat := [16, 17, 18, 0, 8, 7, 9, 6, 10, 5, 11, 4, 12, 3, 13, 2, 14, 1, 15]

/-- Plain sequence of `n` 3-bit reads, in stream order (the values the
claim C8 speaks about). -/
def readVals : Nat → BitRd → Except Err (List Nat × BitRd)
  | 0, r => .ok ([], r)
  | c + 1, r =>
    match readCodelenLen r with
    | .error e => .error e
    | .ok (v, r1) =>
        match readVals c r1 with
        | .error e => .error e
        | .ok (vs, r2) => .ok (v :: vs, r2)

/-- Deposit values into an array through `clPerm`, starting at entry `k0`. -/
def depositVals : List Nat → Nat → List Nat → List Nat
  | [], _, arr => arr
  | v :: vs, k, arr => depositVals vs (k + 1) (arr.set (clPerm.getD k 0) v)

/-- Total indexing with default 0, used to state array claims. -/
def nthD : List Nat → Nat → Nat
  | [], _ => 0
  | a :: _, 0 => a
  | _ :: l, i + 1 => nthD l i

/-- Key `a` is a prefix of key `b` (as bit patterns of the stated
lengths). -/
def seqIsPrefOf (a b : BitSequence) : Prop :=
  a.len ≤ b.len ∧ b.bits >>> (b.len - a.len) = a.bits

/-- A concrete well-formed gzip member: minimal header, one final stored
DEFLATE block with the two payload bytes of "Hi", CRC-32 and ISIZE. -/
def demoMember1 : List Nat :=
  [31, 139, 8, 0, 0, 0, 0, 0, 0, 0, 1, 2, 0, 253, 255, 72, 105, 14, 14, 23, 77, 2, 0, 0, 0]

/-- A concrete well-formed gzip member with empty payload: minimal header,
one final stored block of length zero, CRC-32 = 0 and ISIZE = 0. -/
def demoMember2 : List Nat :=
  [31, 139, 8, 0, 0, 0, 0, 0, 0, 0, 1, 0, 0, 255, 255, 0, 0, 0, 0, 0, 0, 0, 0]

/-! # Theorems -/

/-! ## BitReader -/

/-- The read_bits accumulator loop stops with at least `len` and fewer
than `len + 8` buffered bits, provided it starts below `len + 8`. -/
theorem fillBits_ok_bounds (s : List Nat) :
    ∀ bits cnt len b2 c2 s2, cnt < len + 8 → fillBits s bits cnt len = .ok (b2, c2, s2) →
      len ≤ c2 ∧ c2 < len + 8 := by
  induction s with
  | nil =>
      intro bits cnt len b2 c2 s2 hc h
      by_cases hlt : cnt < len
      · simp [fillBits, hlt] at h
      · simp only [fillBits, if_neg hlt, Except.ok.injEq, Prod.mk.injEq] at h
        omega
  | cons b s1 ih =>
      intro bits cnt len b2 c2 s2 hc h
      by_cases hlt : cnt < len
      · simp only [fillBits, if_pos hlt] at h
        exact ih _ _ _ b2 c2 s2 (by omega) h
      · simp only [fillBits, if_neg hlt, Except.ok.injEq, Prod.mk.injEq] at h
        omega

/-- When no byte is needed the loop returns its arguments unchanged. -/
theorem fillBits_no_pull (s : List Nat) (bits cnt len : Nat) (hle : len ≤ cnt) :
    fillBits s bits cnt len = .ok (bits, cnt, s) := by
  cases s <;> simp [fillBits, Nat.not_lt.mpr hle]

/-- C7: for every BitReader state at rest (unread-bits count below 8) and
every `n ≤ 16`, a successful `read_bits(n)` returns a BitSequence of
length exactly `n` with `bits < 2^n` and leaves the unread-bits count
below 8 again; `read_bits(0)` returns the zero-length sequence and
consumes no input bytes. -/
theorem C7_read_bits_invariant (r : BitRd) (n : Nat) (seq : BitSequence) (r2 : BitRd)
    (h8 : r.unread.len < 8) (h16 : n ≤ 16) (hok : readBits n r = .ok (seq, r2)) :
    seq.len = n ∧ seq.bits < 2 ^ n ∧ r2.unread.len < 8 ∧
      (n = 0 → seq = ⟨0, 0⟩ ∧ r2.stream = r.stream) := by
  unfold readBits at hok
  cases hf : fillBits r.stream r.unread.bits r.unread.len n with
  | error e => rw [hf] at hok; exact absurd hok (by simp)
  | ok out =>
      obtain ⟨b2, c2, s2⟩ := out
      rw [hf] at hok
      simp only [Except.ok.injEq, Prod.mk.injEq] at hok
      obtain ⟨hseq, hr2⟩ := hok
      have hb := fillBits_ok_bounds r.stream r.unread.bits r.unread.len n b2 c2 s2
        (by omega) hf
      refine ⟨by rw [← hseq], ?_, ?_, ?_⟩
      · rw [← hseq]
        have h1 : b2 &&& (2 ^ n - 1) ≤ 2 ^ n - 1 := Nat.and_le_right
        have h2 : (b2 &&& (2 ^ n - 1)) % 65536 ≤ b2 &&& (2 ^ n - 1) := Nat.mod_le _ _
        have h3 : 0 < 2 ^ n := Nat.pos_pow_of_pos n (by omega)
        simp only []
        omega
      · rw [← hr2]
        simp only []
        omega
      · intro hn
        subst hn
        have hnp := fillBits_no_pull r.stream r.unread.bits r.unread.len 0 (Nat.zero_le _)
        rw [hnp] at hf
        injection hf with hf
        cases hf
        constructor
        · rw [← hseq]
          simp
        · rw [← hr2]

/-- C7 witness: a concrete successful 3-bit read over the byte 0x63. -/
theorem C7_read_bits_invariant_witness :
    (⟨[99], ⟨0, 0⟩⟩ : BitRd).unread.len < 8 ∧ 3 ≤ 16 ∧
      readBits 3 ⟨[99], ⟨0, 0⟩⟩ = .ok (⟨3, 3⟩, ⟨[], ⟨12, 5⟩⟩) ∧
      ((⟨3, 3⟩ : BitSequence).len = 3 ∧ (⟨3, 3⟩ : BitSequence).bits < 2 ^ 3 ∧
        (⟨[], ⟨12, 5⟩⟩ : BitRd).unread.len < 8 ∧
        (3 = 0 → (⟨3, 3⟩ : BitSequence) = ⟨0, 0⟩ ∧
          (⟨[], ⟨12, 5⟩⟩ : BitRd).stream = (⟨[99], ⟨0, 0⟩⟩ : BitRd).stream)) :=
  ⟨by decide, by decide, by decide,
    C7_read_bits_invariant ⟨[99], ⟨0, 0⟩⟩ 3 ⟨3, 3⟩ ⟨[], ⟨12, 5⟩⟩
      (by decide) (by decide) (by decide)⟩

/-! ## TrackingWriter -/

/-- Any fuel at least `buf.length` gives the same write_all run: every
continuing iteration accepts at least one byte. -/
theorem twWriteAllGo_fuel (f1 : Nat) : ∀ (f2 : Nat) (w : TWr) (buf : List Nat),
    buf.length ≤ f1 → buf.length ≤ f2 → twWriteAllGo f1 w buf = twWriteAllGo f2 w buf := by
  induction f1 with
  | zero =>
      intro f2 w buf h1 h2
      have : buf = [] := List.length_eq_zero.mp (by omega)
      subst this
      cases f2 <;> rfl
  | succ g1 ih =>
      intro f2 w buf h1 h2
      cases buf with
      | nil => cases f2 <;> rfl
      | cons b rest =>
          cases f2 with
          | zero => simp at h2
          | succ g2 =>
              simp only [twWriteAllGo]
              by_cases hp : (twWrite w (b :: rest)).2 = 0
              · simp [hp]
              · simp only [if_neg hp]
                exact ih g2 _ _
                  (by simp only [List.length_drop, List.length_cons] at *; omega)
                  (by simp only [List.length_drop, List.length_cons] at *; omega)

/-- write_all on a sink with enough room accepts the whole buffer in one
write and updates sink, history, digest and byte count accordingly. -/
theorem twWriteAll_room (w : TWr) (buf : List Nat) (hne : buf ≠ [])
    (hroom : roomFor w.sink buf.length) :
    twWriteAll w buf =
      .ok ⟨⟨w.sink.data ++ buf, w.sink.cap⟩, trimHistory (w.history ++ buf),
        crcUpdateList w.digest buf, w.byteCount + buf.length⟩ := by
  obtain ⟨b, rest, rfl⟩ : ∃ b rest, buf = b :: rest := by
    cases buf with
    | nil => exact absurd rfl hne
    | cons b rest => exact ⟨b, rest, rfl⟩
  have hk0 : (match w.sink.cap with
      | none => (b :: rest).length
      | some c => min (b :: rest).length (c - w.sink.data.length)) = (b :: rest).length := by
    cases hcap : w.sink.cap with
    | none => rfl
    | some c =>
        simp only [roomFor, hcap] at hroom
        simp only []
        omega
  have htw : twWrite w (b :: rest) =
      (⟨⟨w.sink.data ++ (b :: rest), w.sink.cap⟩, trimHistory (w.history ++ (b :: rest)),
        crcUpdateList w.digest (b :: rest), w.byteCount + (b :: rest).length⟩,
        (b :: rest).length) := by
    simp only [twWrite, sinkWrite]
    rw [hk0, List.take_length]
  show twWriteAllGo (b :: rest).length w (b :: rest) = _
  simp only [List.length_cons]
  simp only [twWriteAllGo, htw]
  rw [if_neg (by simp)]
  simp only [List.drop_succ_cons, List.drop_length, twWriteAllGo, List.length_cons]

/-- The snapshot-and-cycle copy of write_previous produces exactly the
bytes described by the spec formula `history[h - dist + (i mod dist)]`. -/
theorem cycleTake_slice (hist : List Nat) (dist len : Nat) (h1 : 1 ≤ dist)
    (h2 : dist ≤ hist.length) (h3 : 1 ≤ len) :
    cycleTake ((hist.drop (hist.length - dist)).take
        (min (hist.length - dist + len) hist.length - (hist.length - dist))) len =
      backRefSpec hist dist len := by
  have hm : min (hist.length - dist + len) hist.length - (hist.length - dist) = min len dist := by
    omega
  rw [hm]
  have hm1 : 1 ≤ min len dist := by omega
  have hlen_slice : ((hist.drop (hist.length - dist)).take (min len dist)).length = min len dist := by
    rw [List.length_take, List.length_drop]
    omega
  have hne : ((hist.drop (hist.length - dist)).take (min len dist)).isEmpty = false := by
    cases hsl : (hist.drop (hist.length - dist)).take (min len dist) with
    | nil => rw [hsl] at hlen_slice; simp at hlen_slice; omega
    | cons x xs => rfl
  unfold cycleTake backRefSpec
  rw [hne]
  simp only [Bool.false_eq_true, if_false]
  apply List.map_congr_left
  intro i hi
  have hilen : i < len := List.mem_range.mp hi
  have him : i % min len dist < min len dist := Nat.mod_lt _ (by omega)
  rw [hlen_slice]
  rw [List.getD_eq_getElem?_getD, List.getD_eq_getElem?_getD]
  rw [List.getElem?_take, if_pos him, List.getElem?_drop]
  have hmod : i % min len dist = i % dist := by
    rcases Nat.le_total len dist with hld | hld
    · rw [Nat.min_eq_left hld, Nat.mod_eq_of_lt hilen, Nat.mod_eq_of_lt (by omega)]
    · rw [Nat.min_eq_right hld]
  rw [hmod]

/-- write_previous under its preconditions and with room in the sink:
success, with exactly the spec bytes appended to sink, history, digest and
count. -/
theorem twWritePrevious_ok (w : TWr) (dist len : Nat) (h1 : 1 ≤ dist)
    (h2 : dist ≤ w.history.length) (h3 : 1 ≤ len) (hroom : roomFor w.sink len) :
    twWritePrevious w dist len =
      .ok ⟨⟨w.sink.data ++ backRefSpec w.history dist len, w.sink.cap⟩,
        trimHistory (w.history ++ backRefSpec w.history dist len),
        crcUpdateList w.digest (backRefSpec w.history dist len),
        w.byteCount + len⟩ := by
  have hlenb : (backRefSpec w.history dist len).length = len := by
    unfold backRefSpec
    rw [List.length_map, List.length_range]
  have hbne : backRefSpec w.history dist len ≠ [] := by
    apply List.length_pos.mp
    omega
  unfold twWritePrevious
  rw [if_neg (by omega)]
  show twWriteAll w (cycleTake ((w.history.drop (w.history.length - dist)).take
      (min (w.history.length - dist + len) w.history.length - (w.history.length - dist))) len) = _
  rw [cycleTake_slice w.history dist len h1 h2 h3]
  rw [twWriteAll_room w _ hbne (by rw [hlenb]; exact hroom)]
  rw [hlenb]

/-- C2: for every TrackingWriter state with history of length `h`, sink
room permitting, a call `write_previous(dist, len)` with `1 ≤ dist ≤ h`
and `len ≥ 1` succeeds and appends, for `i` in `0..len`, byte
`history[h - dist + (i mod dist)]` measured before the copy; the appended
bytes also enter the history ring (trimmed to 32768), the CRC-32 digest,
and the byte count. -/
theorem C2_write_previous_spec (w : TWr) (dist len : Nat) (h1 : 1 ≤ dist)
    (h2 : dist ≤ w.history.length) (h3 : 1 ≤ len) (hroom : roomFor w.sink len) :
    twWritePrevious w dist len =
      .ok ⟨⟨w.sink.data ++ backRefSpec w.history dist len, w.sink.cap⟩,
        trimHistory (w.history ++ backRefSpec w.history dist len),
        crcUpdateList w.digest (backRefSpec w.history dist len),
        w.byteCount + len⟩ ∧
    backRefSpec w.history dist len =
      (List.range len).map (fun i => w.history.getD (w.history.length - dist + i % dist) 0) :=
  ⟨twWritePrevious_ok w dist len h1 h2 h3 hroom, rfl⟩

/-- C2 witness: a concrete overlapped copy (`dist = 2`, `len = 5`) over
history `[5, 6, 7]`. -/
theorem C2_write_previous_spec_witness :
    1 ≤ 2 ∧ 2 ≤ (⟨⟨[5, 6, 7], none⟩, [5, 6, 7], 123, 3⟩ : TWr).history.length ∧ 1 ≤ 5 ∧
      roomFor (⟨⟨[5, 6, 7], none⟩, [5, 6, 7], 123, 3⟩ : TWr).sink 5 ∧
      (twWritePrevious ⟨⟨[5, 6, 7], none⟩, [5, 6, 7], 123, 3⟩ 2 5 =
        .ok ⟨⟨[5, 6, 7] ++ backRefSpec [5, 6, 7] 2 5, none⟩,
          trimHistory ([5, 6, 7] ++ backRefSpec [5, 6, 7] 2 5),
          crcUpdateList 123 (backRefSpec [5, 6, 7] 2 5), 3 + 5⟩ ∧
        backRefSpec [5, 6, 7] 2 5 =
          (List.range 5).map (fun i => ([5, 6, 7] : List Nat).getD (3 - 2 + i % 2) 0)) :=
  ⟨by decide, by decide, by decide, trivial,
    C2_write_previous_spec ⟨⟨[5, 6, 7], none⟩, [5, 6, 7], 123, 3⟩ 2 5
      (by decide) (by decide) (by decide) trivial⟩

/-- C9 counterexample: the scenario of the claim (fresh writer over a
capacity-10 sink, write 0xF0 and 0x0F, then write_previous(2, 8)) produces
the stated ten bytes and byte count, but its finalized CRC-32 is not the
claimed 0xBBA8BD63. -/
theorem C9_crc_counterexample :
    (twWriteAll (twNew ⟨[], some 10⟩) [240] >>= fun w1 =>
      twWriteAll w1 [15] >>= fun w2 => twWritePrevious w2 2 8) =
      .ok ⟨⟨[240, 15, 240, 15, 240, 15, 240, 15, 240, 15], some 10⟩,
        [240, 15, 240, 15, 240, 15, 240, 15, 240, 15], 1146655516, 10⟩ ∧
    crcFinalize 1146655516 ≠ 0xBBA8BD63 := by
  constructor
  · decide
  · decide

/-- C9 (amended): over any sink of capacity at least 10, writing 0xF0 and
0x0F then calling write_previous(2, 8) succeeds, the sink holds exactly
F0 0F F0 0F F0 0F F0 0F F0 0F, the byte count is 10, and the finalized
CRC-32 equals 0xBBA76CE3 (= 3148311779, the value asserted by the source
test). -/
theorem C9_crc_amended (c : Nat) (hc : 10 ≤ c) :
    (twWriteAll (twNew ⟨[], some c⟩) [240] >>= fun w1 =>
      twWriteAll w1 [15] >>= fun w2 => twWritePrevious w2 2 8) =
      .ok ⟨⟨[240, 15, 240, 15, 240, 15, 240, 15, 240, 15], some c⟩,
        [240, 15, 240, 15, 240, 15, 240, 15, 240, 15], 1146655516, 10⟩ ∧
    crcFinalize 1146655516 = 3148311779 := by
  constructor
  · have e1 := twWriteAll_room (twNew ⟨[], some c⟩) [240] (by simp)
      (by simp only [twNew, roomFor, List.length_nil, List.length_cons]; omega)
    have e2 := twWriteAll_room ⟨⟨[240], some c⟩, [240], crcUpdateList CRC_INIT [240], 1⟩ [15]
      (by simp) (by simp only [roomFor, List.length_nil, List.length_cons]; omega)
    have e3 := twWritePrevious_ok ⟨⟨[240, 15], some c⟩, [240, 15],
        crcUpdateList CRC_INIT [240, 15], 2⟩ 2 8 (by decide) (by simp) (by decide)
        (by simp only [roomFor, List.length_nil, List.length_cons]; omega)
    rw [e1]
    show (twWriteAll (⟨⟨[240], some c⟩, [240], crcUpdateList CRC_INIT [240], 1⟩ : TWr) [15] >>=
        fun w2 => twWritePrevious w2 2 8) = _
    rw [e2]
    show twWritePrevious
        (⟨⟨[240, 15], some c⟩, [240, 15], crcUpdateList CRC_INIT [240, 15], 2⟩ : TWr) 2 8 = _
    rw [e3]
    congr 1
    simp only [TWr.mk.injEq, Sink.mk.injEq]
    refine ⟨⟨by decide, trivial⟩, by decide, by decide, by decide⟩
  · decide

/-- C9 amended witness: the scenario at capacity exactly 10. -/
theorem C9_crc_amended_witness :
    10 ≤ 10 ∧
      ((twWriteAll (twNew ⟨[], some 10⟩) [240] >>= fun w1 =>
        twWriteAll w1 [15] >>= fun w2 => twWritePrevious w2 2 8) =
        .ok ⟨⟨[240, 15, 240, 15, 240, 15, 240, 15, 240, 15], some 10⟩,
          [240, 15, 240, 15, 240, 15, 240, 15, 240, 15], 1146655516, 10⟩ ∧
      crcFinalize 1146655516 = 3148311779) :=
  ⟨by decide, C9_crc_amended 10 (by decide)⟩

/-! ## Canonical Huffman construction -/

/-- Every key produced by the assignment loop has a nonzero length at
most 15, a code value in the half-open interval starting at the current
`next_code` of its length and bounded by the number of remaining symbols
of that length, and passes the `< 2^(len+1)` check. -/
theorem assignCodes_mem_bounds {T : Type} (conv : Nat → Except Err T) :
    ∀ (rest : List Nat) (i : Nat) (nc : Nat → Nat) (es : List (BitSequence × T)),
      (∀ l, l ∈ rest → l ≤ 15) →
      assignCodes conv rest i nc = .ok es →
      ∀ e, e ∈ es → 1 ≤ e.1.len ∧ e.1.len ≤ 15 ∧ nc e.1.len ≤ e.1.bits ∧
        e.1.bits < nc e.1.len + rest.count e.1.len ∧ e.1.bits < 2 ^ (e.1.len + 1) := by
  intro rest
  induction rest with
  | nil =>
      intro i nc es hle h e he
      simp only [assignCodes, Except.ok.injEq] at h
      subst h
      simp at he
  | cons l rest ih =>
      intro i nc es hle h e he
      simp only [assignCodes] at h
      by_cases hl : l = 0
      · rw [if_pos hl] at h
        have hb := ih (i + 1) nc es (fun x hx => hle x (List.mem_cons_of_mem l hx)) h e he
        have hne : e.1.len ≠ l := by omega
        rw [List.count_cons_of_ne hne] at *
        exact hb
      · rw [if_neg hl] at h
        by_cases hchk : 2 ^ (l + 1) ≤ nc l
        · rw [if_pos hchk] at h
          exact absurd h (by simp)
        · rw [if_neg hchk] at h
          by_cases hi : 65536 ≤ i
          · rw [if_pos hi] at h
            exact absurd h (by simp)
          · rw [if_neg hi] at h
            cases hconv : conv i with
            | error e2 => rw [hconv] at h; exact absurd h (by simp)
            | ok t =>
                rw [hconv] at h
                cases hrec : assignCodes conv rest (i + 1)
                    (fun x => if x = l then nc l + 1 else nc x) with
                | error e2 => rw [hrec] at h; exact absurd h (by simp)
                | ok es1 =>
                    rw [hrec] at h
                    simp only [Except.ok.injEq] at h
                    subst h
                    have hl15 : l ≤ 15 := hle l (List.mem_cons_self l rest)
                    have hlt16 : nc l < 65536 := by
                      have : 2 ^ (l + 1) ≤ 2 ^ 16 := Nat.pow_le_pow_right (by omega) (by omega)
                      have h16 : (2 : Nat) ^ 16 = 65536 := by norm_num
                      omega
                    have hmod : nc l % 65536 = nc l := Nat.mod_eq_of_lt hlt16
                    rcases List.mem_cons.mp he with he | he
                    · subst he
                      simp only [hmod]
                      have hcself : (l :: rest).count l = rest.count l + 1 :=
                        List.count_cons_self l rest
                      refine ⟨by omega, hl15, Nat.le_refl _, by rw [hcself]; omega, by omega⟩
                    · have hb := ih (i + 1) (fun x => if x = l then nc l + 1 else nc x) es1
                        (fun x hx => hle x (List.mem_cons_of_mem l hx)) hrec e he
                      by_cases hel : e.1.len = l
                      · rw [hel] at hb ⊢
                        replace hb : 1 ≤ l ∧ l ≤ 15 ∧
                            (if l = l then nc l + 1 else nc l) ≤ e.1.bits ∧
                            e.1.bits < (if l = l then nc l + 1 else nc l) + rest.count l ∧
                            e.1.bits < 2 ^ (l + 1) := hb
                        rw [if_pos rfl] at hb
                        have hcself : (l :: rest).count l = rest.count l + 1 :=
                          List.count_cons_self l rest
                        refine ⟨hb.1, hb.2.1, by omega, by rw [hcself]; omega, hb.2.2.2.2⟩
                      · simp only [if_neg hel] at hb
                        rw [List.count_cons_of_ne hel]
                        exact hb

/-- Keys of the same length are assigned strictly increasing code values,
in list order. -/
theorem assignCodes_pairwise {T : Type} (conv : Nat → Except Err T) :
    ∀ (rest : List Nat) (i : Nat) (nc : Nat → Nat) (es : List (BitSequence × T)),
      (∀ l, l ∈ rest → l ≤ 15) →
      assignCodes conv rest i nc = .ok es →
      es.Pairwise (fun a b => a.1.len = b.1.len → a.1.bits < b.1.bits) := by
  intro rest
  induction rest with
  | nil =>
      intro i nc es hle h
      simp only [assignCodes, Except.ok.injEq] at h
      subst h
      exact List.Pairwise.nil
  | cons l rest ih =>
      intro i nc es hle h
      simp only [assignCodes] at h
      by_cases hl : l = 0
      · rw [if_pos hl] at h
        exact ih (i + 1) nc es (fun x hx => hle x (List.mem_cons_of_mem l hx)) h
      · rw [if_neg hl] at h
        by_cases hchk : 2 ^ (l + 1) ≤ nc l
        · rw [if_pos hchk] at h
          exact absurd h (by simp)
        · rw [if_neg hchk] at h
          by_cases hi : 65536 ≤ i
          · rw [if_pos hi] at h
            exact absurd h (by simp)
          · rw [if_neg hi] at h
            cases hconv : conv i with
            | error e2 => rw [hconv] at h; exact absurd h (by simp)
            | ok t =>
                rw [hconv] at h
                cases hrec : assignCodes conv rest (i + 1)
                    (fun x => if x = l then nc l + 1 else nc x) with
                | error e2 => rw [hrec] at h; exact absurd h (by simp)
                | ok es1 =>
                    rw [hrec] at h
                    simp only [Except.ok.injEq] at h
                    subst h
                    have hl15 : l ≤ 15 := hle l (List.mem_cons_self l rest)
                    have hlt16 : nc l < 65536 := by
                      have : 2 ^ (l + 1) ≤ 2 ^ 16 := Nat.pow_le_pow_right (by omega) (by omega)
                      have h16 : (2 : Nat) ^ 16 = 65536 := by norm_num
                      omega
                    refine List.Pairwise.cons ?_
                      (ih (i + 1) _ es1 (fun x hx => hle x (List.mem_cons_of_mem l hx)) hrec)
                    intro e he heq
                    have hb := assignCodes_mem_bounds conv rest (i + 1)
                      (fun x => if x = l then nc l + 1 else nc x) es1
                      (fun x hx => hle x (List.mem_cons_of_mem l hx)) hrec e he
                    simp only at heq
                    rw [← heq] at hb
                    replace hb : 1 ≤ l ∧ l ≤ 15 ∧
                        (if l = l then nc l + 1 else nc l) ≤ e.1.bits ∧
                        e.1.bits < (if l = l then nc l + 1 else nc l) + rest.count l ∧
                        e.1.bits < 2 ^ (l + 1) := hb
                    rw [if_pos rfl] at hb
                    show nc l % 65536 < e.1.bits
                    have hmod := Nat.mod_eq_of_lt hlt16
                    omega

/-- Growth of the canonical first-code values: the block of codes at a
shorter length, shifted left, lies entirely below the first code of any
longer length. -/
theorem ncInitF_growth (L : List Nat) (l : Nat) :
    ∀ k, 1 ≤ k → 2 ^ k * (ncInitF L l + blCnt L l) ≤ ncInitF L (l + k) := by
  intro k
  induction k with
  | zero => omega
  | succ k ih =>
      intro _
      by_cases hk : k = 0
      · subst hk
        simp only [ncInitF]
        omega
      · have hstep : ncInitF L (l + (k + 1)) = (ncInitF L (l + k) + blCnt L (l + k)) * 2 := by
          have : l + (k + 1) = (l + k) + 1 := by omega
          rw [this]
          rfl
        have hih := ih (by omega)
        have : 2 ^ (k + 1) * (ncInitF L l + blCnt L l) =
            2 ^ k * (ncInitF L l + blCnt L l) * 2 := by ring
        rw [this, hstep]
        omega

/-- Arithmetic core of the prefix-freeness argument: two keys with
interval bounds from the canonical construction, ordered within equal
lengths, are mutually non-prefix. -/
theorem keys_not_pref (L : List Nat) (a b : BitSequence)
    (ha : 1 ≤ a.len ∧ ncInitF L a.len ≤ a.bits ∧ a.bits < ncInitF L a.len + blCnt L a.len)
    (hb : 1 ≤ b.len ∧ ncInitF L b.len ≤ b.bits ∧ b.bits < ncInitF L b.len + blCnt L b.len)
    (hord : a.len = b.len → a.bits < b.bits) :
    ¬ seqIsPrefOf a b ∧ ¬ seqIsPrefOf b a := by
  obtain ⟨ha1, ha2, ha3⟩ := ha
  obtain ⟨hb1, hb2, hb3⟩ := hb
  rcases Nat.lt_trichotomy a.len b.len with hlt | heq | hgt
  · constructor
    · rintro ⟨-, hsh⟩
      have hd1 : 1 ≤ b.len - a.len := by omega
      have hgrow := ncInitF_growth L a.len (b.len - a.len) hd1
      rw [show a.len + (b.len - a.len) = b.len by omega] at hgrow
      have hbig : (a.bits + 1) * 2 ^ (b.len - a.len) ≤ b.bits := by
        calc (a.bits + 1) * 2 ^ (b.len - a.len)
            ≤ (ncInitF L a.len + blCnt L a.len) * 2 ^ (b.len - a.len) := by
              exact Nat.mul_le_mul_right _ (by omega)
          _ = 2 ^ (b.len - a.len) * (ncInitF L a.len + blCnt L a.len) := by ring
          _ ≤ ncInitF L b.len := hgrow
          _ ≤ b.bits := hb2
      have hdiv : a.bits + 1 ≤ b.bits >>> (b.len - a.len) := by
        rw [Nat.shiftRight_eq_div_pow]
        exact (Nat.le_div_iff_mul_le (Nat.pos_pow_of_pos _ (by omega))).mpr hbig
      omega
    · rintro ⟨hle, -⟩
      omega
  · constructor
    · rintro ⟨-, hsh⟩
      rw [heq, Nat.sub_self, Nat.shiftRight_zero] at hsh
      have := hord heq
      omega
    · rintro ⟨-, hsh⟩
      rw [← heq, Nat.sub_self, Nat.shiftRight_zero] at hsh
      have := hord heq
      omega
  · constructor
    · rintro ⟨hle, -⟩
      omega
    · rintro ⟨-, hsh⟩
      have hd1 : 1 ≤ a.len - b.len := by omega
      have hgrow := ncInitF_growth L b.len (a.len - b.len) hd1
      rw [show b.len + (a.len - b.len) = a.len by omega] at hgrow
      have hbig : (b.bits + 1) * 2 ^ (a.len - b.len) ≤ a.bits := by
        calc (b.bits + 1) * 2 ^ (a.len - b.len)
            ≤ (ncInitF L b.len + blCnt L b.len) * 2 ^ (a.len - b.len) := by
              exact Nat.mul_le_mul_right _ (by omega)
          _ = 2 ^ (a.len - b.len) * (ncInitF L b.len + blCnt L b.len) := by ring
          _ ≤ ncInitF L a.len := hgrow
          _ ≤ a.bits := ha2
      have hdiv : b.bits + 1 ≤ a.bits >>> (a.len - b.len) := by
        rw [Nat.shiftRight_eq_div_pow]
        exact (Nat.le_div_iff_mul_le (Nat.pos_pow_of_pos _ (by omega))).mpr hbig
      omega

/-- C3 counterexample: `from_lengths [1, 1, 1]` succeeds (each check
`next_code[1] < 2^2` passes), yet the key assigned to symbol 2 is
`(bits = 2, len = 1)`, whose code value does not fit in its stated
length. -/
theorem C3_prefix_code_counterexample :
    fromLengths (fun i => (.ok i : Except Err Nat)) [1, 1, 1] =
      .ok [(⟨0, 1⟩, 0), (⟨1, 1⟩, 1), (⟨2, 1⟩, 2)] ∧
    ¬ ((⟨2, 1⟩ : BitSequence).bits < 2 ^ (⟨2, 1⟩ : BitSequence).len) := by
  constructor
  · decide
  · decide

/-- C3 (amended): for every code-length vector accepted by from_lengths,
the assigned keys are pairwise non-prefix (no key is a bit-pattern prefix
of another), and every code value satisfies the weaker bound
`bits < 2^(len+1)` enforced by the construction check (the stated
`bits < 2^len` fails in general, see the counterexample). -/
theorem C3_from_lengths_prefix_free {T : Type} (conv : Nat → Except Err T) (L : List Nat)
    (es : List (BitSequence × T)) (h : fromLengths conv L = .ok es) :
    (∀ e ∈ es, 1 ≤ e.1.len ∧ e.1.bits < 2 ^ (e.1.len + 1)) ∧
    es.Pairwise (fun a b => ¬ seqIsPrefOf a.1 b.1 ∧ ¬ seqIsPrefOf b.1 a.1) := by
  unfold fromLengths at h
  by_cases hany : L.any (fun x => decide (MAX_BITS < x)) = true
  · rw [if_pos hany] at h
    exact absurd h (by simp)
  · rw [if_neg hany] at h
    have hle : ∀ l, l ∈ L → l ≤ 15 := by
      intro l hlmem
      by_contra hgt
      exact hany (List.any_eq_true.mpr ⟨l, hlmem, by simp [MAX_BITS]; omega⟩)
    have hmem := assignCodes_mem_bounds conv L 0 (ncInitF L) es hle h
    have hpw := assignCodes_pairwise conv L 0 (ncInitF L) es hle h
    refine ⟨fun e he => ⟨(hmem e he).1, (hmem e he).2.2.2.2⟩, ?_⟩
    refine List.Pairwise.imp_of_mem ?_ hpw
    intro a b ha hb hr
    have hba := hmem a ha
    have hbb := hmem b hb
    have hca : blCnt L a.1.len = L.count a.1.len := by
      unfold blCnt
      rw [if_neg (by omega)]
    have hcb : blCnt L b.1.len = L.count b.1.len := by
      unfold blCnt
      rw [if_neg (by omega)]
    exact keys_not_pref L a.1 b.1
      ⟨hba.1, hba.2.2.1, by rw [hca]; exact hba.2.2.2.1⟩
      ⟨hbb.1, hbb.2.2.1, by rw [hcb]; exact hbb.2.2.2.1⟩
      hr

/-- C3 witness: the amended property at the concrete length vector
`[2, 3, 3]`. -/
theorem C3_from_lengths_prefix_free_witness :
    fromLengths (fun i => (.ok i : Except Err Nat)) [2, 3, 3] =
      .ok [(⟨0, 2⟩, 0), (⟨2, 3⟩, 1), (⟨3, 3⟩, 2)] ∧
    ((∀ e ∈ ([(⟨0, 2⟩, 0), (⟨2, 3⟩, 1), (⟨3, 3⟩, 2)] : List (BitSequence × Nat)),
        1 ≤ e.1.len ∧ e.1.bits < 2 ^ (e.1.len + 1)) ∧
      ([(⟨0, 2⟩, 0), (⟨2, 3⟩, 1), (⟨3, 3⟩, 2)] : List (BitSequence × Nat)).Pairwise
        (fun a b => ¬ seqIsPrefOf a.1 b.1 ∧ ¬ seqIsPrefOf b.1 a.1)) :=
  ⟨by decide,
    C3_from_lengths_prefix_free (fun i => (.ok i : Except Err Nat)) [2, 3, 3]
      [(⟨0, 2⟩, 0), (⟨2, 3⟩, 1), (⟨3, 3⟩, 2)] (by decide)⟩

/-! ## Dynamic block code-length permutation -/

/-- Indexing a replicate-0 array gives 0. -/
theorem nthD_replicate0 : ∀ (n j : Nat), nthD (List.replicate n 0) j = 0 := by
  intro n
  induction n with
  | zero => intro j; cases j <;> rfl
  | succ n ih =>
      intro j
      cases j with
      | zero => rfl
      | succ j2 => exact ih j2

/-- Setting then reading the same (in-bounds) index. -/
theorem nthD_set_self : ∀ (l : List Nat) (i v : Nat), i < l.length →
    nthD (l.set i v) i = v := by
  intro l
  induction l with
  | nil => intro i v h; simp at h
  | cons a l ih =>
      intro i v h
      cases i with
      | zero => rfl
      | succ i2 => exact ih i2 v (by simp at h; omega)

/-- Setting one index leaves the others unchanged. -/
theorem nthD_set_ne : ∀ (l : List Nat) (i j v : Nat), i ≠ j →
    nthD (l.set i v) j = nthD l j := by
  intro l
  induction l with
  | nil => intro i j v h; rfl
  | cons a l ih =>
      intro i j v h
      cases i with
      | zero =>
          cases j with
          | zero => exact absurd rfl h
          | succ j2 => rfl
      | succ i2 =>
          cases j with
          | zero => rfl
          | succ j2 => exact ih i2 j2 v (by omega)

/-- Depositing preserves the array length. -/
theorem depositVals_length : ∀ (vals : List Nat) (k : Nat) (arr : List Nat),
    (depositVals vals k arr).length = arr.length := by
  intro vals
  induction vals with
  | nil => intro k arr; rfl
  | cons v vs ih =>
      intro k arr
      show (depositVals vs (k + 1) (arr.set (clPerm.getD k 0) v)).length = arr.length
      rw [ih, List.length_set]

/-- Depositing over a disjoint range of permutation entries leaves an
index unchanged. -/
theorem depositVals_nthD_untouched : ∀ (vals : List Nat) (k0 : Nat) (arr : List Nat) (j : Nat),
    (∀ k, k0 ≤ k → k < k0 + vals.length → clPerm.getD k 0 ≠ j) →
    nthD (depositVals vals k0 arr) j = nthD arr j := by
  intro vals
  induction vals with
  | nil => intro k0 arr j hno; rfl
  | cons v vs ih =>
      intro k0 arr j hno
      show nthD (depositVals vs (k0 + 1) (arr.set (clPerm.getD k0 0) v)) j = nthD arr j
      rw [ih (k0 + 1) _ j (fun k h1 h2 => hno k (by omega) (by simp; omega))]
      exact nthD_set_ne arr (clPerm.getD k0 0) j v
        (hno k0 (Nat.le_refl k0) (by simp))

/-- Every permutation entry is an index below 19. -/
theorem clPerm_lt : ∀ k, k < 19 → clPerm.getD k 0 < 19 := by decide

/-- The permutation entries are pairwise distinct. -/
theorem clPerm_inj : ∀ k1, k1 < 19 → ∀ k2, k2 < 19 → k1 ≠ k2 →
    clPerm.getD k1 0 ≠ clPerm.getD k2 0 := by decide

/-- The index formula of the build_codelen_coding loop agrees with the
permutation of the claim, shifted past its first four entries. -/
theorem codelen_idx_eq : ∀ i, i < 15 →
    (if i % 2 = 0 then 8 + i / 2 else 7 - i / 2) = clPerm.getD (4 + i) 0 := by decide

/-- Depositing reads each value back from its permutation slot. -/
theorem depositVals_nthD_written : ∀ (vals : List Nat) (k0 : Nat) (arr : List Nat) (k : Nat),
    arr.length = 19 → k0 + vals.length ≤ 19 → k < vals.length →
    nthD (depositVals vals k0 arr) (clPerm.getD (k0 + k) 0) = vals.getD k 0 := by
  intro vals
  induction vals with
  | nil => intro k0 arr k h19 hb hk; simp at hk
  | cons v vs ih =>
      intro k0 arr k h19 hb hk
      simp only [List.length_cons] at hb
      cases k with
      | zero =>
          show nthD (depositVals vs (k0 + 1) (arr.set (clPerm.getD k0 0) v))
            (clPerm.getD k0 0) = v
          rw [depositVals_nthD_untouched vs (k0 + 1) _ (clPerm.getD k0 0)
            (fun k2 h1 h2 => clPerm_inj k2 (by omega) k0 (by omega) (by omega))]
          exact nthD_set_self arr (clPerm.getD k0 0) v
            (by rw [h19]; exact clPerm_lt k0 (by omega))
      | succ k2 =>
          show nthD (depositVals vs (k0 + 1) (arr.set (clPerm.getD k0 0) v))
            (clPerm.getD (k0 + (k2 + 1)) 0) = vs.getD k2 0
          rw [show k0 + (k2 + 1) = (k0 + 1) + k2 by omega]
          exact ih (k0 + 1) _ k2 (by rw [List.length_set]; exact h19) (by omega)
            (by simp at hk; omega)

/-- Depositing a concatenation composes. -/
theorem depositVals_append : ∀ (xs ys : List Nat) (k : Nat) (arr : List Nat),
    depositVals (xs ++ ys) k arr = depositVals ys (k + xs.length) (depositVals xs k arr) := by
  intro xs
  induction xs with
  | nil => intro ys k arr; rw [List.nil_append]; rfl
  | cons x xs ih =>
      intro ys k arr
      show depositVals (xs ++ ys) (k + 1) (arr.set (clPerm.getD k 0) x) =
        depositVals ys (k + (xs.length + 1)) (depositVals xs (k + 1) (arr.set (clPerm.getD k 0) x))
      rw [ih ys (k + 1) _, show k + 1 + xs.length = k + (xs.length + 1) by omega]

/-- The successful values of `readVals` number exactly its count. -/
theorem readVals_length : ∀ (c : Nat) (r : BitRd) (vals : List Nat) (r1 : BitRd),
    readVals c r = .ok (vals, r1) → vals.length = c := by
  intro c
  induction c with
  | zero =>
      intro r vals r1 h
      simp only [readVals, Except.ok.injEq, Prod.mk.injEq] at h
      rw [← h.1]
      rfl
  | succ c ih =>
      intro r vals r1 h
      simp only [readVals] at h
      split at h
      · exact absurd h (by simp)
      · rename_i v ra he1
        split at h
        · exact absurd h (by simp)
        · rename_i vs rb he2
          simp only [Except.ok.injEq, Prod.mk.injEq] at h
          rw [← h.1, List.length_cons, ih ra vs rb he2]

/-- The indexed loop of build_codelen_coding is the plain 3-bit read
sequence deposited through the permutation, starting at entry 4. -/
theorem codelenLoop_eq : ∀ (c i : Nat) (arr : List Nat) (r : BitRd), i + c ≤ 15 →
    codelenLoop c i arr r = (match readVals c r with
      | .error e => .error e
      | .ok (vals, r1) => .ok (depositVals vals (4 + i) arr, r1)) := by
  intro c
  induction c with
  | zero => intro i arr r hb; rfl
  | succ c ih =>
      intro i arr r hb
      cases e1 : readCodelenLen r with
      | error e =>
          show (match readCodelenLen r with
            | Except.error e => (Except.error e : Except Err (List Nat × BitRd))
            | Except.ok (v, r1) =>
                codelenLoop c (i + 1)
                  (arr.set (if i % 2 = 0 then 8 + i / 2 else 7 - i / 2) v) r1) = _
          simp only [readVals, e1]
      | ok p =>
          obtain ⟨v, r1⟩ := p
          show (match readCodelenLen r with
            | Except.error e => (Except.error e : Except Err (List Nat × BitRd))
            | Except.ok (v, r1) =>
                codelenLoop c (i + 1)
                  (arr.set (if i % 2 = 0 then 8 + i / 2 else 7 - i / 2) v) r1) = _
          simp only [readVals, e1]
          rw [ih (i + 1) _ r1 (by omega)]
          rw [codelen_idx_eq i (by omega)]
          cases e2 : readVals c r1 with
          | error e => simp only [e2]
          | ok q =>
              obtain ⟨vs, r2⟩ := q
              simp only [e2]
              show Except.ok (depositVals vs (4 + (i + 1)) (arr.set (clPerm.getD (4 + i) 0) v), r2) =
                Except.ok (depositVals (v :: vs) (4 + i) arr, r2)
              rw [show 4 + (i + 1) = (4 + i) + 1 by omega]
              rfl

/-- C8: for a dynamic block with `4 ≤ ncode ≤ 19` code-length-alphabet
entries, the k-th 3-bit length read from the stream is deposited at index
`perm[k]` of the 19-element array, where `perm = [16, 17, 18, 0, 8, 7, 9,
6, 10, 5, 11, 4, 12, 3, 13, 2, 14, 1, 15]`, and indices not written
remain 0. -/
theorem readVals_succ_inv (c : Nat) (r : BitRd) (vals : List Nat) (r1 : BitRd)
    (h : readVals (c + 1) r = .ok (vals, r1)) :
    ∃ v ra vs, readCodelenLen r = .ok (v, ra) ∧ readVals c ra = .ok (vs, r1) ∧
      vals = v :: vs := by
  simp only [readVals] at h
  split at h
  · exact absurd h (by simp)
  · rename_i v ra he1
    split at h
    · exact absurd h (by simp)
    · rename_i vs r2 he2
      simp only [Except.ok.injEq, Prod.mk.injEq] at h
      exact ⟨v, ra, vs, he1, by rw [he2, h.2], h.1.symm⟩

/-- C8: for a dynamic block with `4 ≤ ncode ≤ 19` code-length-alphabet
entries, the k-th 3-bit length read from the stream is deposited at index
`perm[k]` of the 19-element array, where `perm = [16, 17, 18, 0, 8, 7, 9,
6, 10, 5, 11, 4, 12, 3, 13, 2, 14, 1, 15]`, and indices not written
remain 0. -/
theorem C8_codelen_deposit (ncode : Nat) (r r1 : BitRd) (vals : List Nat)
    (h4 : 4 ≤ ncode) (h19 : ncode ≤ 19) (hr : readVals ncode r = .ok (vals, r1)) :
    ∃ arr, buildCodelenLengths ncode r = .ok (arr, r1) ∧ arr.length = 19 ∧
      (∀ k, k < ncode → nthD arr (clPerm.getD k 0) = vals.getD k 0) ∧
      (∀ j, j < 19 → (∀ k, k < ncode → clPerm.getD k 0 ≠ j) → nthD arr j = 0) := by
  obtain ⟨m, rfl⟩ : ∃ m, ncode = m + 4 := ⟨ncode - 4, by omega⟩
  obtain ⟨v1, ra, t1, he1, hr1, rfl⟩ := readVals_succ_inv (m + 3) r vals r1 hr
  obtain ⟨v2, rb, t2, he2, hr2, rfl⟩ := readVals_succ_inv (m + 2) ra t1 r1 hr1
  obtain ⟨v3, rc, t3, he3, hr3, rfl⟩ := readVals_succ_inv (m + 1) rb t2 r1 hr2
  obtain ⟨v4, rd, vs, he4, hr4, rfl⟩ := readVals_succ_inv m rc t3 r1 hr3
  have hvs := readVals_length m rd vs r1 hr4
  have hbuild : buildCodelenLengths (m + 4) r =
      codelenLoop m 0
        (((((List.replicate 19 0).set 16 v1).set 17 v2).set 18 v3).set 0 v4) rd := by
    simp only [buildCodelenLengths, bind, Except.bind, he1, he2, he3, he4]
    rw [show m + 4 - 4 = m from by omega]
  rw [codelenLoop_eq m 0 _ rd (by omega)] at hbuild
  simp only [hr4] at hbuild
  refine ⟨depositVals (v1 :: v2 :: v3 :: v4 :: vs) 0 (List.replicate 19 0),
    ?_, ?_, ?_, ?_⟩
  · rw [show (v1 :: v2 :: v3 :: v4 :: vs) = [v1, v2, v3, v4] ++ vs from rfl,
      depositVals_append]
    exact hbuild
  · rw [depositVals_length]
    simp
  · intro k hk
    have hw := depositVals_nthD_written (v1 :: v2 :: v3 :: v4 :: vs) 0
      (List.replicate 19 0) k (by simp) (by simp [hvs]; omega)
      (by simp [hvs]; omega)
    rwa [Nat.zero_add] at hw
  · intro j hj hno
    rw [depositVals_nthD_untouched _ 0 _ j
      (fun k hk0 hklt => hno k (by simp [hvs] at hklt; omega))]
    exact nthD_replicate0 19 j

/-- C8 witness: five 3-bit reads over two zero bytes. -/
theorem C8_codelen_deposit_witness :
    4 ≤ 5 ∧ 5 ≤ 19 ∧
      readVals 5 ⟨[0, 0], ⟨0, 0⟩⟩ = .ok ([0, 0, 0, 0, 0], ⟨[], ⟨0, 1⟩⟩) ∧
      (∃ arr, buildCodelenLengths 5 ⟨[0, 0], ⟨0, 0⟩⟩ = .ok (arr, ⟨[], ⟨0, 1⟩⟩) ∧
        arr.length = 19 ∧
        (∀ k, k < 5 → nthD arr (clPerm.getD k 0) = ([0, 0, 0, 0, 0] : List Nat).getD k 0) ∧
        (∀ j, j < 19 → (∀ k, k < 5 → clPerm.getD k 0 ≠ j) → nthD arr j = 0)) :=
  ⟨by decide, by decide, by decide,
    C8_codelen_deposit 5 ⟨[0, 0], ⟨0, 0⟩⟩ ⟨[], ⟨0, 1⟩⟩ [0, 0, 0, 0, 0]
      (by decide) (by decide) (by decide)⟩

/-! ## Gzip header and footer -/

/-- C4 failing input: a header with FHCRC and FNAME set whose stored CRC16
field is the correct low 16 bits of the CRC-32 over the wire header bytes
(with a single NUL after the name) is rejected, because crc16() digests
the stored name (which already contains the NUL) plus another NUL. -/
theorem C4_header_crc_double_nul :
    readHeader ([31, 139, 8, 10, 0, 0, 0, 0, 0, 0, 97, 0] ++
        le2 (crc32 [31, 139, 8, 10, 0, 0, 0, 0, 0, 0, 97, 0] &&& 65535)) =
      .error .headerCrcMismatch ∧
    headerCrc16 ⟨8, 0, 0, 0, none, some [97, 0], none, true, false⟩ ≠
      crc32 [31, 139, 8, 10, 0, 0, 0, 0, 0, 0, 97, 0] &&& 65535 := by
  constructor
  · decide
  · decide

/-- C5 failing input: a footer whose ISIZE field is 0 while the writer has
emitted 2^32 bytes.  `2^32 mod 2^32 = 0` matches ISIZE, so the claim says
the length check passes, but the source compares the untruncated byte
count and fails. -/
theorem C5_isize_no_mod :
    readFooter [0, 0, 0, 0, 0, 0, 0, 0] ⟨⟨[], none⟩, [], CRC_INIT, 2 ^ 32⟩ =
      .error .lengthMismatch ∧ (2 ^ 32) % 2 ^ 32 = 0 := by
  constructor
  · decide
  · decide

/-- C6 failing input: FNAME set, input ends after one name byte with no
NUL.  Header parsing succeeds with the truncated name instead of failing
with UnterminatedString. -/
theorem C6_truncated_name_accepted :
    readHeader [31, 139, 8, 8, 0, 0, 0, 0, 0, 0, 97] =
      .ok (⟨8, 0, 0, 0, none, some [97], none, false, false⟩, []) ∧
    ([97] : List Nat).getLast? ≠ some 0 := by
  constructor
  · decide
  · decide

/-- If the stream contains a NUL, read_until stops at the first one and
includes it, so the returned buffer ends with 0. -/
theorem readUntil0_last (s : List Nat) (h0 : 0 ∈ s) :
    (readUntil0 s).1.getLast? = some 0 := by
  induction s with
  | nil => simp at h0
  | cons b rest ih =>
      by_cases hb : b = 0
      · subst hb
        simp [readUntil0]
      · simp only [readUntil0, if_neg hb]
        have h0r : 0 ∈ rest := by
          rcases List.mem_cons.mp h0 with h | h
          · exact absurd h.symm hb
          · exact h
        have ihr := ih h0r
        cases hp : (readUntil0 rest).1 with
        | nil => rw [hp] at ihr; simp at ihr
        | cons x xs =>
            rw [hp] at ihr
            rw [List.getLast?_cons_cons]
            exact ihr

/-- C10: when the input contains a NUL terminator, a name accepted by
read_name is valid UTF-8 and ends with the NUL byte (which read_until
kept in the buffer and from_utf8 kept in the string). -/
theorem C10_name_keeps_nul_utf8 (s str rest : List Nat) (h0 : 0 ∈ s)
    (hok : readName true s = .ok (some str, rest)) :
    validUtf8 str = true ∧ str.getLast? = some 0 := by
  cases hn : readNullTermString s with
  | error e =>
      rw [show readName true s = (match readNullTermString s with
        | Except.error e => (Except.error e : Except Err (Option (List Nat) × List Nat))
        | Except.ok (n, s1) => Except.ok (some n, s1)) from rfl, hn] at hok
      exact absurd hok (by simp)
  | ok p =>
      rw [show readName true s = (match readNullTermString s with
        | Except.error e => (Except.error e : Except Err (Option (List Nat) × List Nat))
        | Except.ok (n, s1) => Except.ok (some n, s1)) from rfl, hn] at hok
      obtain ⟨n, s1⟩ := p
      simp only [Except.ok.injEq, Prod.mk.injEq, Option.some.injEq] at hok
      obtain ⟨rfl, rfl⟩ := hok
      rw [show readNullTermString s =
          (if (readUntil0 s).1.isEmpty then .error .unterminatedString
           else if validUtf8 (readUntil0 s).1 then .ok ((readUntil0 s).1, (readUntil0 s).2)
           else .error .badUtf8) from rfl] at hn
      split at hn
      · exact absurd hn (by simp)
      · split at hn
        · rename_i hemp hutf
          simp only [Except.ok.injEq, Prod.mk.injEq] at hn
          obtain ⟨rfl, -⟩ := hn
          exact ⟨hutf, readUntil0_last s h0⟩
        · exact absurd hn (by simp)

/-- C10 witness: the name bytes `61 00` followed by more input. -/
theorem C10_name_keeps_nul_utf8_witness :
    (0 ∈ ([97, 0, 5] : List Nat)) ∧
      readName true [97, 0, 5] = .ok (some [97, 0], [5]) ∧
      (validUtf8 [97, 0] = true ∧ ([97, 0] : List Nat).getLast? = some 0) :=
  ⟨by decide, by decide,
    C10_name_keeps_nul_utf8 [97, 0, 5] [97, 0] [5] (by decide) (by decide)⟩

/-! ## Multi-member decompression -/

/-- C1: decompressing a concatenation of well-formed gzip members (each
member decodes on its own, consuming exactly its bytes and appending
exactly its payload to the shared sink) succeeds and writes the
concatenation of the payloads, in order; the loop terminates cleanly at
end of input. -/
theorem C1_decompress_members (fuel : Nat) :
    ∀ (members : List (List Nat × List Nat)) (mf : Nat) (sink : Sink),
      chainOK fuel members sink → members.length ≤ mf →
      decompressLoop mf fuel (memberBytes members) sink =
        .ok ⟨sink.data ++ memberPayloads members, sink.cap⟩ := by
  intro members
  induction members with
  | nil =>
      intro mf sink hc hm
      show decompressLoop mf fuel [] sink = .ok ⟨sink.data ++ [], sink.cap⟩
      rw [List.append_nil]
      cases mf <;> rfl
  | cons mp rest ih =>
      intro mf sink hc hm
      obtain ⟨m, p⟩ := mp
      obtain ⟨hne, hdec, hrest⟩ := hc
      obtain ⟨b, mtail, rfl⟩ : ∃ b mt, m = b :: mt := by
        cases m with
        | nil => exact absurd rfl hne
        | cons b mt => exact ⟨b, mt, rfl⟩
      cases mf with
      | zero => simp at hm
      | succ mf2 =>
          show (match decodeMember fuel ((b :: mtail) ++ memberBytes rest) sink with
            | Except.error e => (Except.error e : Except Err Sink)
            | Except.ok (s1, sink1) => decompressLoop mf2 fuel s1 sink1) = _
          rw [hdec]
          show decompressLoop mf2 fuel (memberBytes rest) ⟨sink.data ++ p, sink.cap⟩ = _
          rw [ih mf2 _ hrest (by simp at hm; omega)]
          show _ = Except.ok (⟨sink.data ++ (p ++ memberPayloads rest), sink.cap⟩ : Sink)
          rw [List.append_assoc]

/-- The concrete two-member chain used as the C1 witness. -/
theorem demoChainOK :
    chainOK 3 [(demoMember1, [72, 105]), (demoMember2, [])] ⟨[], none⟩ :=
  ⟨by decide, by decide, by decide, by decide, trivial⟩

/-- C1 witness: two concrete stored-block members ("Hi" and the empty
payload) decompress to "Hi". -/
theorem C1_decompress_members_witness :
    chainOK 3 [(demoMember1, [72, 105]), (demoMember2, [])] ⟨[], none⟩ ∧
    ([(demoMember1, [72, 105]), (demoMember2, [])] : List (List Nat × List Nat)).length ≤ 2 ∧
    decompressLoop 2 3 (memberBytes [(demoMember1, [72, 105]), (demoMember2, [])]) ⟨[], none⟩ =
      .ok ⟨([] : List Nat) ++ memberPayloads [(demoMember1, [72, 105]), (demoMember2, [])],
        none⟩ :=
  ⟨demoChainOK, by decide,
    C1_decompress_members 3 [(demoMember1, [72, 105]), (demoMember2, [])] 2 ⟨[], none⟩
      demoChainOK (by decide)⟩

end GD
